import Mathlib

/-! Verification of the synthsniff scanning core.

Shallow embedding of the `sniff` package (scanner, rule engine, ignore
matcher) together with proofs about the claims of the specification.

Modelling conventions:

* Byte strings (file contents, rule patterns, heuristic tokens) are
  `List Nat`, one entry per byte.  Go's `strings.Count`, `strings.Contains`
  and `bytes.IndexByte` are modelled on that representation.
* File-system paths are lists of clean components (`GoPath`); `filepath.Join`
  is appending a component, `filepath.Clean` is the identity on such paths,
  and rendering to the Go string is `String.intercalate "/"`.
* Go's `int`/`int64` are `Int` (no claim exercises overflow), `float64`
  (`MinPercent`) is `Rat`: the thresholds compared are small integers
  divided by small integers, where `float64` rounding is not observable in
  any claim considered.
* Fallible I/O (stat, read-dir, read/mmap of a file) is `Except Unit`.
  A scan sees one immutable file system, so acquisition results are carried
  as data: every read of the same file yields the same bytes.
-/

namespace Sniff

/-- Scanning loop of Go's `strings.Count` for a non-empty pattern
`p :: ps`: at each position, if `skip` characters of the previous
occurrence remain they are consumed, otherwise an occurrence starting here
is counted and the rest of the pattern is skipped (this renders "advance
past the match" structurally, so occurrences never overlap). -/
def countOccAux (p : Nat) (ps : List Nat) (skip : Nat) : List Nat → Nat
  | [] => 0
  | c :: cs =>
    match skip with
    | skip' + 1 => countOccAux p ps skip' cs
    | 0 =>
      if (p :: ps).isPrefixOf (c :: cs) then countOccAux p ps ps.length cs + 1
      else countOccAux p ps 0 cs

/-- Number of non-overlapping occurrences of the pattern `p :: ps`. -/
def countOcc (p : Nat) (ps : List Nat) (s : List Nat) : Nat :=
  countOccAux p ps 0 s

/-- Number of non-continuation bytes; equals `utf8.RuneCountInString` on
valid UTF-8 content. -/
def utf8RuneCount (s : List Nat) : Nat :=
  (s.filter (fun b => decide (b < 128) || decide (192 ≤ b))).length

/-- Go `strings.Count s pat` (on bytes): for an empty pattern it returns
1 + the rune count, otherwise the number of non-overlapping occurrences. -/
def stringsCount (s pat : List Nat) : Nat :=
  match pat with
  | [] => utf8RuneCount s + 1
  | p :: ps => countOcc p ps s

/-- Go `strings.Contains s sub` (on bytes). -/
def containsSub (sub : List Nat) : List Nat → Bool
  | [] => sub.isEmpty
  | c :: cs => sub.isPrefixOf (c :: cs) || containsSub sub cs

/-- `Rule` from rules.go: name, literal pattern (bytes), weight and the
optional filters. -/
structure Rule where
  name : String
  pattern : List Nat
  weight : Int
  minCount : Int := 0
  minPercent : Rat := 0
  description : String := ""
  ext : String := ""
  exts : List String := []
  deriving DecidableEq, Repr

/-- `appliesToExt` from rules.go: a rule with no extension filter applies to
every extension; otherwise the single `ext` is compared first, then the
`exts` list is searched. -/
def Rule.appliesToExt (r : Rule) (e : String) : Bool :=
  if r.ext = "" ∧ r.exts = [] then true
  else if e = r.ext then true
  else r.exts.contains e

/-- `passesThresholds` from rules.go: reject when `count < minCount`
(for positive `minCount`); reject when `minPercent > 0`, the file is
non-empty and `100*count/fileLen < minPercent`. -/
def Rule.passesThresholds (r : Rule) (count fileLen : Nat) : Bool :=
  if 0 < r.minCount ∧ (count : Int) < r.minCount then false
  else if 0 < r.minPercent ∧ 0 < fileLen ∧
      100 * (count : Rat) / (fileLen : Rat) < r.minPercent then false
  else true

/-- `RuleHit` from scanner.go. -/
structure RuleHit where
  rule : Rule
  count : Nat
  deriving DecidableEq, Repr

/-- The `Detail` field: a Go `map[string]RuleHit`, modelled as an
association list in insertion order (assignment overwrites in place). -/
abbrev Detail := List (String × RuleHit)

/-- Assignment `m[k] = v` on the association-list model of a Go map. -/
def insertAL (l : Detail) (k : String) (v : RuleHit) : Detail :=
  match l with
  | [] => [(k, v)]
  | (k', v') :: t => if k' = k then (k, v) :: t else (k', v') :: insertAL t k v

/-- Lookup `m[k]` on the association-list model of a Go map. -/
def lookupAL (l : Detail) (k : String) : Option RuleHit :=
  match l with
  | [] => none
  | (k', v') :: t => if k' = k then some v' else lookupAL t k

/-- `Result` from scanner.go.  The zero value has score 0, nil detail and
`Smelly = false`. -/
structure Result where
  path : String
  score : Int := 0
  detail : Detail := []
  smelly : Bool := false
  deriving DecidableEq, Repr

/-- `Config` from config.go (fields the core reads; `DictPath` is a clean
component path, `none` for the empty string). -/
structure Config where
  dictPath : Option (List String) := none
  threshold : Int := 0
  maxSize : Int := 0
  workers : Int := 0
  deriving DecidableEq, Repr

/-- A path as a list of clean components. -/
abbrev GoPath := List String

instance {e a : Type} [DecidableEq e] [DecidableEq a] : DecidableEq (Except e a) := fun x y =>
  match x, y with
  | .ok u, .ok v =>
    if h : u = v then isTrue (by rw [h]) else isFalse (fun hh => h (Except.ok.inj hh))
  | .error u, .error v =>
    if h : u = v then isTrue (by rw [h]) else isFalse (fun hh => h (Except.error.inj hh))
  | .ok _, .error _ => isFalse (fun hh => Except.noConfusion hh)
  | .error _, .ok _ => isFalse (fun hh => Except.noConfusion hh)

/-- Rendering a component path to the Go string. -/
def renderPath (p : GoPath) : String := String.intercalate "/" p

/-- Final component of a path (the file name). -/
def lastComp (p : GoPath) : String := p.getLastD ""

/-- Scanning loop of Go `filepath.Ext`, over the reversed character list:
stop with `""` at a separator or at the end, return from the last dot. -/
def goExtAux (acc : List Char) : List Char → String
  | [] => ""
  | c :: rest =>
    if c = '/' then ""
    else if c = '.' then String.mk ('.' :: acc)
    else goExtAux (c :: acc) rest

/-- Go `filepath.Ext` applied to a path ending in this file name. -/
def goExt (name : String) : String := goExtAux [] name.data.reverse

/-- `strings.ToLower`, per character (extensions are ASCII; Go also lowers
non-ASCII letters, which no extension compared against contains). -/
def toLowerStr (s : String) : String := String.mk (s.data.map Char.toLower)

/-- The zero-value `Result{Path: path}` used for every soft per-file
failure. -/
def zeroResult (path : GoPath) : Result := { path := renderPath path }

/-- One iteration of the rule loop of `analyse`: skip rules whose extension
filter rejects the file, count occurrences, skip zero counts and failed
thresholds, otherwise add `count*weight` and record the hit under the rule
name. -/
def scoreStep (content : List Nat) (e : String) (acc : Int × Detail) (r : Rule) :
    Int × Detail :=
  if ¬ r.appliesToExt e then acc
  else
    let count := stringsCount content r.pattern
    if count = 0 ∨ ¬ r.passesThresholds count content.length then acc
    else (acc.1 + (count : Int) * r.weight, insertAL acc.2 r.name ⟨r, count⟩)

/-- `analyse` from scanner.go.  `acq` is the outcome of the content
acquisition (`mmapFile`); an acquisition failure, a zero byte in the
content, or a positive size limit smaller than the content each yield the
zero-value result; otherwise the rule loop runs and
`Smelly = (score >= threshold)`. -/
def analyse (path : GoPath) (acq : Except Unit (List Nat)) (rules : List Rule)
    (cfg : Config) : Result :=
  match acq with
  | .error _ => zeroResult path
  | .ok data =>
    if data.contains 0 then zeroResult path
    else if 0 < cfg.maxSize ∧ cfg.maxSize < (data.length : Int) then zeroResult path
    else
      let st := rules.foldl (scoreStep data (goExt (lastComp path))) (0, [])
      { path := renderPath path, score := st.1, detail := st.2,
        smelly := decide (cfg.threshold ≤ st.1) }

/-- A rule contributes to a file: its extension filter admits the file, its
pattern occurs, and the optional thresholds pass (the skip conditions of the
rule loop, negated). -/
def contributes (content : List Nat) (e : String) (r : Rule) : Bool :=
  r.appliesToExt e && decide (stringsCount content r.pattern ≠ 0) &&
    r.passesThresholds (stringsCount content r.pattern) content.length

/-! ## Lemmas about the rule loop of `analyse` -/

theorem contributes_iff {content : List Nat} {e : String} {r : Rule} :
    contributes content e r = true ↔
      r.appliesToExt e = true ∧ stringsCount content r.pattern ≠ 0 ∧
        r.passesThresholds (stringsCount content r.pattern) content.length = true := by
  simp [contributes, and_assoc]

theorem scoreStep_of_not_contributes {content : List Nat} {e : String} {r : Rule}
    (h : contributes content e r = false) (acc : Int × Detail) :
    scoreStep content e acc r = acc := by
  unfold scoreStep
  by_cases h1 : r.appliesToExt e
  · by_cases h3 : r.passesThresholds (stringsCount content r.pattern) content.length
    · by_cases h2 : stringsCount content r.pattern = 0
      · simp [h1, h2]
      · exact absurd h (by simp [contributes, h1, h2, h3])
    · simp [h1, h3]
  · simp [h1]

theorem scoreStep_of_contributes {content : List Nat} {e : String} {r : Rule}
    (h : contributes content e r = true) (acc : Int × Detail) :
    scoreStep content e acc r =
      (acc.1 + (stringsCount content r.pattern : Int) * r.weight,
        insertAL acc.2 r.name ⟨r, stringsCount content r.pattern⟩) := by
  obtain ⟨h1, h2, h3⟩ := contributes_iff.1 h
  unfold scoreStep
  simp [h1, h2, h3]

theorem foldl_scoreStep_fst (content : List Nat) (e : String) :
    ∀ (rules : List Rule) (s : Int) (d : Detail),
    (rules.foldl (scoreStep content e) (s, d)).1 =
      s + ((rules.filter (contributes content e)).map
        (fun r => (stringsCount content r.pattern : Int) * r.weight)).sum
  | [], s, d => by simp
  | r :: rest, s, d => by
    rw [List.foldl_cons, List.filter_cons]
    by_cases h : contributes content e r
    · rw [scoreStep_of_contributes h, if_pos h,
        foldl_scoreStep_fst content e rest _ _]
      simp [add_assoc]
    · rw [scoreStep_of_not_contributes (Bool.not_eq_true _ ▸ h) (s, d),
        if_neg h, foldl_scoreStep_fst content e rest s d]

theorem lookupAL_insertAL_self (l : Detail) (k : String) (v : RuleHit) :
    lookupAL (insertAL l k v) k = some v := by
  induction l with
  | nil => simp [insertAL, lookupAL]
  | cons p t ih =>
    obtain ⟨pk, pv⟩ := p
    by_cases h : pk = k
    · simp [insertAL, lookupAL, h]
    · simp [insertAL, lookupAL, h, ih]

theorem lookupAL_insertAL_ne (l : Detail) {k k' : String} (v : RuleHit)
    (h : k' ≠ k) : lookupAL (insertAL l k v) k' = lookupAL l k' := by
  have hk : ¬ (k = k') := Ne.symm h
  induction l with
  | nil => simp [insertAL, lookupAL, hk]
  | cons p t ih =>
    obtain ⟨pk, pv⟩ := p
    by_cases hp : pk = k
    · subst hp
      simp [insertAL, lookupAL, hk]
    · by_cases hp' : pk = k'
      · subst hp'
        simp [insertAL, lookupAL, hp]
      · simp [insertAL, lookupAL, hp, hp', ih]

theorem foldl_scoreStep_lookup (content : List Nat) (e : String) (k : String) :
    ∀ (rules : List Rule) (s : Int) (d : Detail),
    lookupAL (rules.foldl (scoreStep content e) (s, d)).2 k =
      match rules.reverse.find? (fun r => contributes content e r && r.name == k) with
      | some r => some ⟨r, stringsCount content r.pattern⟩
      | none => lookupAL d k
  | [], s, d => by simp
  | r :: rest, s, d => by
    rw [List.foldl_cons, List.reverse_cons, List.find?_append]
    rcases hfind : rest.reverse.find? (fun r => contributes content e r && r.name == k) with
      _ | rf
    · rw [foldl_scoreStep_lookup content e k rest _ _, hfind]
      by_cases h : contributes content e r
      · rw [scoreStep_of_contributes h]
        by_cases hk : r.name = k
        · subst hk
          simp [h, lookupAL_insertAL_self]
        · simp only [List.find?_singleton, h, Bool.true_and, beq_iff_eq, hk, if_neg,
            Option.none_or]
          simp [lookupAL_insertAL_ne _ _ (fun hh => hk hh.symm), hk]
      · rw [scoreStep_of_not_contributes (Bool.not_eq_true _ ▸ h) (s, d)]
        simp [List.find?_singleton, h]
    · rw [foldl_scoreStep_lookup content e k rest _ _, hfind]
      simp

theorem analyse_ok_detail_lookup (path : GoPath) (data : List Nat) (rules : List Rule)
    (cfg : Config) (hz : data.contains 0 = false)
    (hs : ¬ (0 < cfg.maxSize ∧ cfg.maxSize < (data.length : Int))) (k : String) :
    lookupAL (analyse path (.ok data) rules cfg).detail k =
      match rules.reverse.find?
          (fun r => contributes data (goExt (lastComp path)) r && r.name == k) with
      | some r => some ⟨r, stringsCount data r.pattern⟩
      | none => none := by
  rw [analyse]
  simp only [hz, Bool.false_eq_true, if_false, if_neg hs]
  exact foldl_scoreStep_lookup data (goExt (lastComp path)) k rules 0 []

theorem analyse_ok_score (path : GoPath) (data : List Nat) (rules : List Rule)
    (cfg : Config) (hz : data.contains 0 = false)
    (hs : ¬ (0 < cfg.maxSize ∧ cfg.maxSize < (data.length : Int))) :
    (analyse path (.ok data) rules cfg).score =
      ((rules.filter (contributes data (goExt (lastComp path)))).map
        (fun r => (stringsCount data r.pattern : Int) * r.weight)).sum := by
  rw [analyse]
  simp only [hz, Bool.false_eq_true, if_false, if_neg hs]
  simpa using foldl_scoreStep_fst data (goExt (lastComp path)) rules 0 []

/-! ## The file system model and the scanner pipeline -/

/-- A file-system node.  A `file` carries the outcome of reading/mapping it
(the scan sees one immutable file system, so the walker's heuristic read and
the analysis read agree); a `dir` carries the outcome of `os.ReadDir`
(entries in the sorted order `os.ReadDir` returns, each with the
`DirEntry.IsDir` information in the constructor). -/
inductive FsTree where
  | file (data : Except Unit (List Nat))
  | dir (listing : Except Unit (List (String × FsTree)))

/-- A directory listing. -/
abbrev Listing := List (String × FsTree)

/-- Read outcome of a file. -/
abbrev FileData := Except Unit (List Nat)

/-- A file handed to the worker pool: its path and its content. -/
abbrev Dispatch := GoPath × FileData

/-- The directory queue of the breadth-first walk. -/
abbrev Queue := List (GoPath × Except Unit Listing)

/-- Bytes of the token checked by the rule-file heuristic. -/
def patternTok : List Nat := [112, 97, 116, 116, 101, 114, 110]

/-- Bytes of the second token checked by the rule-file heuristic. -/
def weightTok : List Nat := [119, 101, 105, 103, 104, 116]

/-- The walker's dictionary skip:
`dictPath != "" && filepath.Clean(p) == filepath.Clean(dictPath)`. -/
def isDictPath (dict : Option GoPath) (p : GoPath) : Bool :=
  match dict with
  | none => false
  | some dp => p == dp

/-- The per-file part of the walker loop: skip the dictionary file; for a
structured-data extension read the file and skip it when it is non-empty
and contains both heuristic tokens; otherwise dispatch it. -/
def entryDispatch (dict : Option GoPath) (d : GoPath) (n : String) (fdata : FileData) :
    Option Dispatch :=
  let ep := d ++ [n]
  if isDictPath dict ep then none
  else
    let e := toLowerStr (goExt n)
    if e = ".yaml" ∨ e = ".yml" ∨ e = ".json" then
      match fdata with
      | .ok data =>
        if data ≠ [] ∧ containsSub patternTok data ∧ containsSub weightTok data then none
        else some (ep, fdata)
      | .error _ => some (ep, fdata)
    else some (ep, fdata)

/-- Subdirectories of a listing pushed onto the queue, skipping `.git`. -/
def dirEntries (d : GoPath) (es : Listing) : Queue :=
  es.filterMap (fun en => match en.2 with
    | .dir l => if en.1 = ".git" then none else some (d ++ [en.1], l)
    | .file _ => none)

/-- Files of a listing passed through `entryDispatch`, in listing order. -/
def fileEntries (dict : Option GoPath) (d : GoPath) (es : Listing) : List Dispatch :=
  es.filterMap (fun en => match en.2 with
    | .file fd => entryDispatch dict d en.1 fd
    | .dir _ => none)

theorem dirEntries_measure (d : GoPath) (es : Listing) :
    ((dirEntries d es).map (fun en => sizeOf en.2)).sum < 1 + sizeOf es := by
  induction es with
  | nil => simp [dirEntries]
  | cons en rest ih =>
    obtain ⟨n, t⟩ := en
    cases t with
    | file fd =>
      have hd : dirEntries d ((n, .file fd) :: rest) = dirEntries d rest := by
        simp [dirEntries, List.filterMap_cons]
      rw [hd]
      simp only [List.cons.sizeOf_spec]
      omega
    | dir l =>
      by_cases hg : n = ".git"
      · subst hg
        have hd : dirEntries d ((".git", .dir l) :: rest) = dirEntries d rest := by
          simp [dirEntries, List.filterMap_cons]
        rw [hd]
        simp only [List.cons.sizeOf_spec]
        omega
      · have hd : dirEntries d ((n, .dir l) :: rest) =
            (d ++ [n], l) :: dirEntries d rest := by
          simp [dirEntries, List.filterMap_cons, hg]
        rw [hd]
        simp only [List.map_cons, List.sum_cons, List.cons.sizeOf_spec,
          Prod.mk.sizeOf_spec, FsTree.dir.sizeOf_spec]
        omega

/-- The breadth-first loop over the directory queue of
`walkDirBreadthFirst`: pop the front, fail on an unreadable listing,
dispatch its files, append its subdirectories to the back. -/
def walkQueue (dict : Option GoPath) : Queue → Except Unit (List Dispatch)
  | [] => .ok []
  | (_, .error _) :: _ => .error ()
  | (d, .ok es) :: rest =>
    match walkQueue dict (rest ++ dirEntries d es) with
    | .error e => .error e
    | .ok tail => .ok (fileEntries dict d es ++ tail)
  termination_by q => (q.map (fun en => sizeOf en.2)).sum
  decreasing_by
    have h := dirEntries_measure d es
    simp only [List.map_append, List.sum_append, List.map_cons, List.sum_cons,
      Except.ok.sizeOf_spec]
    omega

/-- The root loop of `walkDirBreadthFirst`: stat each root, fail on a stat
error, queue root directories, dispatch root files (only the dictionary
skip applies to root files). -/
def rootPhase (dict : Option GoPath) : List (GoPath × Except Unit FsTree) →
    Except Unit (List Dispatch × Queue)
  | [] => .ok ([], [])
  | (_, .error _) :: _ => .error ()
  | (p, .ok (.file fd)) :: rest =>
    match rootPhase dict rest with
    | .error e => .error e
    | .ok (ds, q) => .ok ((if isDictPath dict p then [] else [(p, fd)]) ++ ds, q)
  | (p, .ok (.dir l)) :: rest =>
    match rootPhase dict rest with
    | .error e => .error e
    | .ok (ds, q) => .ok (ds, (p, l) :: q)

/-- `walkDirBreadthFirst` from scanner.go: roots first, then the
breadth-first queue. -/
def walkDirBreadthFirst (roots : List (GoPath × Except Unit FsTree))
    (dict : Option GoPath) : Except Unit (List Dispatch) :=
  match rootPhase dict roots with
  | .error e => .error e
  | .ok (ds, q) =>
    match walkQueue dict q with
    | .error e => .error e
    | .ok tail => .ok (ds ++ tail)

/-- Comparison used by the final sort: `results[i].Path < results[j].Path`
(modelled with the reflexive closure; ties in reachable scans carry
identical results, so every sorted permutation is the same list). -/
def pathLe (a b : Result) : Prop := a.path ≤ b.path

instance : DecidableRel pathLe := fun a b => inferInstanceAs (Decidable (a.path ≤ b.path))

instance : IsTotal Result pathLe := ⟨fun a b => le_total a.path b.path⟩

instance : IsTrans Result pathLe := ⟨fun _ _ _ => le_trans⟩

/-- The final `sort.Slice` on collected results, by path. -/
def sortResults (l : List Result) : List Result := l.insertionSort pathLe

/-- `Scan` from scanner.go.  `rulesRes` is the outcome of `LoadRules`
(deserialization is an external collaborator of the core); `roots` pairs
each root path with its `os.Stat`/tree outcome.  Worker count and batching
only affect the arrival order of results, which the final sort cancels
(see the determinism theorems), so the collected list is modelled in
dispatch order. -/
def Scan (rulesRes : Except Unit (List Rule))
    (roots : List (GoPath × Except Unit FsTree)) (cfg : Config) :
    Except Unit (List Result) :=
  match rulesRes with
  | .error e => .error e
  | .ok rules =>
    match walkDirBreadthFirst roots cfg.dictPath with
    | .error e => .error e
    | .ok ds => .ok (sortResults (ds.map (fun pd => analyse pd.1 pd.2 rules cfg)))

/-! ## Sorting machinery -/

theorem sortResults_sorted (l : List Result) : (sortResults l).Sorted pathLe :=
  List.sorted_insertionSort pathLe l

theorem sortResults_perm (l : List Result) : (sortResults l).Perm l :=
  List.perm_insertionSort pathLe l

/-- Two sorted permutations of each other agree as soon as results with the
same path are identical — the reason the unstable, `<`-based `sort.Slice`
of the scanner is deterministic. -/
theorem sorted_perm_eq_of_ties :
    ∀ {l₁ l₂ : List Result}, l₁.Perm l₂ → l₁.Sorted pathLe → l₂.Sorted pathLe →
      (∀ a ∈ l₁, ∀ b ∈ l₁, a.path = b.path → a = b) → l₁ = l₂ := by
  intro l₁
  induction l₁ with
  | nil =>
    intro l₂ hp _ _ _
    exact hp.nil_eq.symm ▸ rfl
  | cons a t₁ ih =>
    intro l₂ hp hs₁ hs₂ hties
    cases l₂ with
    | nil => exact absurd hp.symm.nil_eq (by simp)
    | cons b t₂ =>
      have hab : a = b := by
        by_cases h : a = b
        · exact h
        · have ha2 : a ∈ t₂ := by
            have := hp.subset (List.mem_cons_self a t₁)
            simpa [h] using this
          have hb1 : b ∈ a :: t₁ := hp.symm.subset (List.mem_cons_self b t₂)
          have hb1' : b ∈ t₁ := by
            rcases List.mem_cons.1 hb1 with hh | hh
            · exact absurd hh.symm h
            · exact hh
          have h1 : pathLe a b := List.rel_of_sorted_cons hs₁ b hb1'
          have h2 : pathLe b a := List.rel_of_sorted_cons hs₂ a ha2
          exact hties a (List.mem_cons_self a t₁) b hb1 (le_antisymm h1 h2)
      subst hab
      have ht : t₁ = t₂ :=
        ih hp.cons_inv (List.Sorted.of_cons hs₁) (List.Sorted.of_cons hs₂)
          (fun x hx y hy => hties x (List.mem_cons_of_mem _ hx) y (List.mem_cons_of_mem _ hy))
      rw [ht]

/-! ## Inversion lemmas for the pipeline -/

theorem Scan_ok_inv {rulesRes : Except Unit (List Rule)}
    {roots : List (GoPath × Except Unit FsTree)} {cfg : Config} {rs : List Result}
    (h : Scan rulesRes roots cfg = .ok rs) :
    ∃ rules ds, rulesRes = .ok rules ∧
      walkDirBreadthFirst roots cfg.dictPath = .ok ds ∧
      rs = sortResults (ds.map (fun pd => analyse pd.1 pd.2 rules cfg)) := by
  cases hr : rulesRes with
  | error e => rw [Scan.eq_def, hr] at h; cases h
  | ok rules =>
    cases hw : walkDirBreadthFirst roots cfg.dictPath with
    | error e => rw [Scan.eq_def, hr, hw] at h; cases h
    | ok ds =>
      rw [Scan.eq_def, hr, hw] at h
      exact ⟨rules, ds, rfl, rfl, (Except.ok.injEq _ _ ▸ h).symm⟩

theorem Scan_error_iff (rulesRes : Except Unit (List Rule))
    (roots : List (GoPath × Except Unit FsTree)) (cfg : Config) :
    (∃ e, Scan rulesRes roots cfg = .error e) ↔
      (∃ e, rulesRes = .error e) ∨
        (∃ e, walkDirBreadthFirst roots cfg.dictPath = .error e) := by
  cases hr : rulesRes with
  | error e => simp [Scan, hr]
  | ok rules =>
    cases hw : walkDirBreadthFirst roots cfg.dictPath with
    | error e => simp [Scan, hr, hw]
    | ok ds => simp [Scan, hr, hw]

/-! ## Walker invariants -/

mutual

/-- Every directory listing in this tree (including the top one) is
readable. -/
def FsTree.allDirsOk : FsTree → Bool
  | .file _ => true
  | .dir (.error _) => false
  | .dir (.ok es) => Listing.allDirsOk es
  termination_by t => sizeOf t
  decreasing_by
    simp only [FsTree.dir.sizeOf_spec, Except.ok.sizeOf_spec]
    omega

/-- `FsTree.allDirsOk` over all entries of a listing. -/
def Listing.allDirsOk : Listing → Bool
  | [] => true
  | en :: rest => FsTree.allDirsOk en.2 && Listing.allDirsOk rest
  termination_by es => sizeOf es
  decreasing_by
    · obtain ⟨n, t⟩ := en
      simp only [List.cons.sizeOf_spec, Prod.mk.sizeOf_spec]
      omega
    · simp only [List.cons.sizeOf_spec]
      omega

end

theorem Listing.allDirsOk_mem {es : Listing} (h : Listing.allDirsOk es = true)
    {en : String × FsTree} (hm : en ∈ es) : FsTree.allDirsOk en.2 = true := by
  induction es with
  | nil => cases hm
  | cons hd tl ih =>
    have h' : FsTree.allDirsOk hd.2 = true ∧ Listing.allDirsOk tl = true := by
      have := h
      rw [Listing.allDirsOk] at this
      exact Bool.and_eq_true _ _ ▸ this
    rcases List.mem_cons.1 hm with hh | hh
    · subst hh; exact h'.1
    · exact ih h'.2 hh

theorem mem_dirEntries {d : GoPath} {es : Listing} {q : GoPath × Except Unit Listing}
    (h : q ∈ dirEntries d es) :
    ∃ n, (n, FsTree.dir q.2) ∈ es ∧ q.1 = d ++ [n] ∧ n ≠ ".git" := by
  obtain ⟨en, hmem, hsome⟩ := List.mem_filterMap.1 h
  obtain ⟨n, t⟩ := en
  cases t with
  | file fd => simp at hsome
  | dir l =>
    by_cases hg : n = ".git"
    · simp [hg] at hsome
    · simp only [if_neg hg, Option.some.injEq] at hsome
      subst hsome
      exact ⟨n, hmem, rfl, hg⟩

theorem mem_fileEntries {dict : Option GoPath} {d : GoPath} {es : Listing} {dp : Dispatch}
    (h : dp ∈ fileEntries dict d es) :
    ∃ n fd, (n, FsTree.file fd) ∈ es ∧ entryDispatch dict d n fd = some dp := by
  obtain ⟨en, hmem, hsome⟩ := List.mem_filterMap.1 h
  obtain ⟨n, t⟩ := en
  cases t with
  | file fd => exact ⟨n, fd, hmem, hsome⟩
  | dir l => simp at hsome

/-- What being dispatched by the walker loop means for a single entry. -/
theorem entryDispatch_some_inv {dict : Option GoPath} {d : GoPath} {n : String}
    {fd : FileData} {dp : Dispatch} (h : entryDispatch dict d n fd = some dp) :
    dp = (d ++ [n], fd) ∧ isDictPath dict (d ++ [n]) = false ∧
      ((toLowerStr (goExt n) = ".yaml" ∨ toLowerStr (goExt n) = ".yml" ∨
          toLowerStr (goExt n) = ".json") →
        ∀ data, fd = .ok data →
          ¬ (data ≠ [] ∧ containsSub patternTok data = true ∧
              containsSub weightTok data = true)) := by
  unfold entryDispatch at h
  by_cases hdict : isDictPath dict (d ++ [n]) = true
  · rw [if_pos hdict] at h; cases h
  · have hdictf : isDictPath dict (d ++ [n]) = false := Bool.not_eq_true _ ▸ hdict
    rw [if_neg hdict] at h
    refine And.intro ?_ (And.intro hdictf ?_)
    all_goals
      by_cases hext : toLowerStr (goExt n) = ".yaml" ∨ toLowerStr (goExt n) = ".yml" ∨
          toLowerStr (goExt n) = ".json"
    · rw [if_pos hext] at h
      cases fd with
      | ok data =>
        dsimp only at h
        by_cases hskip : data ≠ [] ∧ containsSub patternTok data = true ∧
            containsSub weightTok data = true
        · rw [if_pos hskip] at h; cases h
        · rw [if_neg hskip] at h; exact (Option.some.inj h).symm
      | error e => dsimp only at h; exact (Option.some.inj h).symm
    · rw [if_neg hext] at h
      exact (Option.some.inj h).symm
    · rw [if_pos hext] at h
      cases fd with
      | ok data =>
        dsimp only at h
        by_cases hskip : data ≠ [] ∧ containsSub patternTok data = true ∧
            containsSub weightTok data = true
        · rw [if_pos hskip] at h; cases h
        · intro _ data' hd'
          obtain rfl : data = data' := Except.ok.inj hd'
          exact hskip
      | error e => intro _ data hdata; cases hdata
    · intro hext' _ _
      exact absurd hext' hext

/-- If every queued listing (hereditarily) is readable, the walk
succeeds: per-file read failures never abort the walk. -/
theorem walkQueue_isOk_of_allOk (dict : Option GoPath) :
    ∀ q : Queue,
      (∀ en ∈ q, ∃ es, en.2 = .ok es ∧ Listing.allDirsOk es = true) →
      ∃ ds, walkQueue dict q = .ok ds := by
  intro q
  induction q using walkQueue.induct dict with
  | case1 => exact fun _ => ⟨[], by rw [walkQueue]⟩
  | case2 fst a tail =>
    intro hq
    obtain ⟨es, hes, _⟩ := hq (fst, .error a) (List.mem_cons_self _ _)
    cases hes
  | case3 d es rest e hrec ih =>
    intro hq
    have hstep : ∀ en ∈ rest ++ dirEntries d es,
        ∃ es', en.2 = .ok es' ∧ Listing.allDirsOk es' = true := by
      intro en hen
      rcases List.mem_append.1 hen with hh | hh
      · exact hq en (List.mem_cons_of_mem _ hh)
      · obtain ⟨n, hmem, _, _⟩ := mem_dirEntries hh
        obtain ⟨es₀, hes₀, hok₀⟩ := hq (d, .ok es) (List.mem_cons_self _ _)
        obtain rfl : es = es₀ := Except.ok.inj hes₀
        have hdir := Listing.allDirsOk_mem hok₀ hmem
        cases hl : en.2 with
        | error e' =>
          rw [hl] at hdir
          rw [FsTree.allDirsOk] at hdir
          cases hdir
        | ok es' =>
          rw [hl] at hdir
          rw [FsTree.allDirsOk] at hdir
          exact ⟨es', rfl, hdir⟩
    obtain ⟨ds, hds⟩ := ih hstep
    rw [hds] at hrec
    cases hrec
  | case4 d es rest tail hrec ih =>
    intro _
    refine ⟨fileEntries dict d es ++ tail, ?_⟩
    rw [walkQueue, hrec]

/-- Every dispatch of the walk comes from `entryDispatch` below a queued
directory, where the queued directories satisfy any property preserved by
descending into a non-`.git` entry. -/
theorem walkQueue_dispatch_inv (dict : Option GoPath) (P : GoPath → Prop)
    (hstep : ∀ p n, P p → n ≠ ".git" → P (p ++ [n])) :
    ∀ q : Queue, (∀ en ∈ q, P en.1) →
      ∀ {ds : List Dispatch}, walkQueue dict q = .ok ds →
      ∀ dp ∈ ds, ∃ d n fd, P d ∧ entryDispatch dict d n fd = some dp := by
  intro q
  induction q using walkQueue.induct dict with
  | case1 =>
    intro _ ds h dp hdp
    rw [walkQueue] at h
    obtain rfl : ([] : List Dispatch) = ds := Except.ok.inj h
    cases hdp
  | case2 fst a tail =>
    intro _ ds h
    rw [walkQueue] at h
    cases h
  | case3 d es rest e hrec ih =>
    intro _ ds h
    rw [walkQueue, hrec] at h
    cases h
  | case4 d es rest tail hrec ih =>
    intro hq ds h dp hdp
    rw [walkQueue, hrec] at h
    obtain rfl : fileEntries dict d es ++ tail = ds := Except.ok.inj h
    rcases List.mem_append.1 hdp with hh | hh
    · obtain ⟨n, fd, _, hdisp⟩ := mem_fileEntries hh
      exact ⟨d, n, fd, hq (d, .ok es) (List.mem_cons_self _ _), hdisp⟩
    · refine ih ?_ hrec dp hh
      intro en hen
      rcases List.mem_append.1 hen with h1 | h1
      · exact hq en (List.mem_cons_of_mem _ h1)
      · obtain ⟨n, _, hp, hg⟩ := mem_dirEntries h1
        rw [hp]
        exact hstep d n (hq (d, .ok es) (List.mem_cons_self _ _)) hg

/-- If every root stats successfully and every tree below is hereditarily
readable, the root phase succeeds and queues only readable listings. -/
theorem rootPhase_ok_of_allOk (dict : Option GoPath) :
    ∀ roots : List (GoPath × Except Unit FsTree),
      (∀ rt ∈ roots, ∃ t, rt.2 = .ok t ∧ FsTree.allDirsOk t = true) →
      ∃ ds q, rootPhase dict roots = .ok (ds, q) ∧
        ∀ en ∈ q, ∃ es, en.2 = .ok es ∧ Listing.allDirsOk es = true := by
  intro roots
  induction roots with
  | nil => exact fun _ => ⟨[], [], rfl, by simp⟩
  | cons rt rest ih =>
    intro hr
    obtain ⟨p, tr⟩ := rt
    obtain ⟨t, ht, hok⟩ := hr (p, tr) (List.mem_cons_self _ _)
    obtain rfl : tr = .ok t := ht
    obtain ⟨ds, q, hrp, hq⟩ := ih (fun x hx => hr x (List.mem_cons_of_mem _ hx))
    cases t with
    | file fd =>
      refine ⟨(if isDictPath dict p then [] else [(p, fd)]) ++ ds, q, ?_, hq⟩
      rw [rootPhase, hrp]
    | dir l =>
      cases l with
      | error e => rw [FsTree.allDirsOk] at hok; cases hok
      | ok es =>
        rw [FsTree.allDirsOk] at hok
        refine ⟨ds, (p, .ok es) :: q, ?_, ?_⟩
        · rw [rootPhase, hrp]
        · intro en hen
          rcases List.mem_cons.1 hen with hh | hh
          · subst hh; exact ⟨es, rfl, hok⟩
          · exact hq en hh

/-- Inversion of a successful root phase: queued directories and dispatched
files both come from the root list, and dispatched root files passed the
dictionary check (and nothing else). -/
theorem rootPhase_inv (dict : Option GoPath) :
    ∀ (roots : List (GoPath × Except Unit FsTree)) {ds : List Dispatch} {q : Queue},
      rootPhase dict roots = .ok (ds, q) →
      (∀ en ∈ q, (en.1, Except.ok (FsTree.dir en.2)) ∈ roots) ∧
      (∀ dp ∈ ds, (dp.1, Except.ok (FsTree.file dp.2)) ∈ roots ∧
        isDictPath dict dp.1 = false) := by
  intro roots
  induction roots with
  | nil =>
    intro ds q h
    rw [rootPhase] at h
    obtain ⟨rfl, rfl⟩ : ([] : List Dispatch) = ds ∧ ([] : Queue) = q := by
      have := Except.ok.inj h
      exact ⟨congrArg Prod.fst this, congrArg Prod.snd this⟩
    exact ⟨fun en hen => absurd hen (List.not_mem_nil en),
      fun dp hdp => absurd hdp (List.not_mem_nil dp)⟩
  | cons rt rest ih =>
    intro ds q h
    obtain ⟨p, tr⟩ := rt
    cases tr with
    | error e => rw [rootPhase] at h; cases h
    | ok t =>
      cases t with
      | file fd =>
        rw [rootPhase] at h
        cases hrp : rootPhase dict rest with
        | error e => rw [hrp] at h; cases h
        | ok pr =>
          obtain ⟨ds', q'⟩ := pr
          rw [hrp] at h
          dsimp only at h
          have hinj := Except.ok.inj h
          obtain ⟨hds, hq⟩ : (if isDictPath dict p then [] else [(p, fd)]) ++ ds' = ds ∧
              q' = q :=
            ⟨congrArg Prod.fst hinj, congrArg Prod.snd hinj⟩
          subst hds hq
          obtain ⟨hqinv, hdinv⟩ := ih hrp
          refine ⟨fun en hen => List.mem_cons_of_mem _ (hqinv en hen), ?_⟩
          intro dp hdp
          rcases List.mem_append.1 hdp with hh | hh
          · by_cases hd : isDictPath dict p = true
            · rw [if_pos hd] at hh; cases hh
            · rw [if_neg hd] at hh
              obtain rfl : dp = (p, fd) := by simpa using hh
              exact ⟨List.mem_cons_self _ _, Bool.not_eq_true _ ▸ hd⟩
          · obtain ⟨hmem, hdict⟩ := hdinv dp hh
            exact ⟨List.mem_cons_of_mem _ hmem, hdict⟩
      | dir l =>
        rw [rootPhase] at h
        cases hrp : rootPhase dict rest with
        | error e => rw [hrp] at h; cases h
        | ok pr =>
          obtain ⟨ds', q'⟩ := pr
          rw [hrp] at h
          dsimp only at h
          have hinj := Except.ok.inj h
          obtain ⟨hds, hq⟩ : ds' = ds ∧ (p, l) :: q' = q :=
            ⟨congrArg Prod.fst hinj, congrArg Prod.snd hinj⟩
          subst hds hq
          obtain ⟨hqinv, hdinv⟩ := ih hrp
          refine ⟨?_, fun dp hdp =>
            ⟨List.mem_cons_of_mem _ (hdinv dp hdp).1, (hdinv dp hdp).2⟩⟩
          intro en hen
          rcases List.mem_cons.1 hen with hh | hh
          · subst hh; exact List.mem_cons_self _ _
          · exact List.mem_cons_of_mem _ (hqinv en hh)

/-- Soft-error tolerance of the enumeration: with readable roots and
directories the walk always produces a dispatch list. -/
theorem walkDir_isOk_of_allOk (roots : List (GoPath × Except Unit FsTree))
    (dict : Option GoPath)
    (h : ∀ rt ∈ roots, ∃ t, rt.2 = .ok t ∧ FsTree.allDirsOk t = true) :
    ∃ ds, walkDirBreadthFirst roots dict = .ok ds := by
  obtain ⟨ds, q, hrp, hq⟩ := rootPhase_ok_of_allOk dict roots h
  obtain ⟨tail, htail⟩ := walkQueue_isOk_of_allOk dict q hq
  refine ⟨ds ++ tail, ?_⟩
  rw [walkDirBreadthFirst, hrp]
  dsimp only
  rw [htail]

/-- Every dispatched file of a successful enumeration is either a root file
that passed the dictionary check, or was dispatched by `entryDispatch`
below a directory reachable from a root without crossing `.git`. -/
theorem walkDir_dispatch_inv {roots : List (GoPath × Except Unit FsTree)}
    {dict : Option GoPath} {ds : List Dispatch}
    (h : walkDirBreadthFirst roots dict = .ok ds) (P : GoPath → Prop)
    (hroot : ∀ rt ∈ roots, P rt.1)
    (hstep : ∀ p n, P p → n ≠ ".git" → P (p ++ [n])) :
    ∀ dp ∈ ds,
      ((dp.1, Except.ok (FsTree.file dp.2)) ∈ roots ∧ isDictPath dict dp.1 = false) ∨
      (∃ d n fd, P d ∧ entryDispatch dict d n fd = some dp) := by
  rw [walkDirBreadthFirst] at h
  cases hrp : rootPhase dict roots with
  | error e => rw [hrp] at h; cases h
  | ok pr =>
    obtain ⟨ds0, q⟩ := pr
    rw [hrp] at h
    dsimp only at h
    cases hwq : walkQueue dict q with
    | error e => rw [hwq] at h; cases h
    | ok tail =>
      rw [hwq] at h
      obtain rfl : ds0 ++ tail = ds := Except.ok.inj h
      obtain ⟨hqinv, hdinv⟩ := rootPhase_inv dict roots hrp
      intro dp hdp
      rcases List.mem_append.1 hdp with hh | hh
      · exact Or.inl (hdinv dp hh)
      · refine Or.inr (walkQueue_dispatch_inv dict P hstep q ?_ hwq dp hh)
        exact fun en hen => hroot _ (hqinv en hen)

/-! ## Small facts about `analyse` -/

theorem analyse_path_eq (path : GoPath) (acq : FileData) (rules : List Rule)
    (cfg : Config) : (analyse path acq rules cfg).path = renderPath path := by
  cases acq with
  | error e => rfl
  | ok data =>
    rw [analyse]
    split
    · rfl
    · split
      · rfl
      · rfl

theorem analyse_smelly_iff (path : GoPath) (acq : FileData) (rules : List Rule)
    (cfg : Config) (hpos : 0 < cfg.threshold) :
    ((analyse path acq rules cfg).smelly = true ↔
      cfg.threshold ≤ (analyse path acq rules cfg).score) := by
  have hzero : (false = true ↔ cfg.threshold ≤ (0 : Int)) := by
    constructor
    · intro hh; cases hh
    · intro hh; omega
  cases acq with
  | error e => exact hzero
  | ok data =>
    rw [analyse]
    split
    · exact hzero
    · split
      · exact hzero
      · exact decide_eq_true_iff

theorem analyse_threshold_indep (path : GoPath) (acq : FileData) (rules : List Rule)
    (cfg : Config) (t t' : Int) :
    (analyse path acq rules { cfg with threshold := t }).score =
      (analyse path acq rules { cfg with threshold := t' }).score ∧
    (analyse path acq rules { cfg with threshold := t }).detail =
      (analyse path acq rules { cfg with threshold := t' }).detail ∧
    (analyse path acq rules { cfg with threshold := t }).path =
      (analyse path acq rules { cfg with threshold := t' }).path := by
  cases acq with
  | error e => exact ⟨rfl, rfl, rfl⟩
  | ok data =>
    simp only [analyse]
    dsimp only
    split
    · exact ⟨rfl, rfl, rfl⟩
    · split
      · exact ⟨rfl, rfl, rfl⟩
      · exact ⟨rfl, rfl, rfl⟩

/-! ## Claim C1 -/

/-- Claim C1 (amended): for every file that passes acquisition, binary and
size gating, the Score is the sum of `count*weight` over exactly the
contributing rules; every Detail entry is a contributing rule keyed by its
name with its count, every contributing rule has an entry under its name,
and — provided no two contributing rules share a name — the entry under
each contributing rule's name is exactly that rule with its count.  (The
original claim, without the distinct-name proviso, fails when two
contributing rules share a name; see the counterexample.) -/
theorem claimC1 (path : GoPath) (data : List Nat) (rules : List Rule) (cfg : Config)
    (hz : data.contains 0 = false)
    (hs : ¬ (0 < cfg.maxSize ∧ cfg.maxSize < (data.length : Int))) :
    ((analyse path (.ok data) rules cfg).score =
      ((rules.filter (contributes data (goExt (lastComp path)))).map
        (fun r => (stringsCount data r.pattern : Int) * r.weight)).sum) ∧
    (∀ k hit, lookupAL (analyse path (.ok data) rules cfg).detail k = some hit →
      ∃ r ∈ rules, contributes data (goExt (lastComp path)) r = true ∧ r.name = k ∧
        hit = ⟨r, stringsCount data r.pattern⟩) ∧
    (∀ r ∈ rules, contributes data (goExt (lastComp path)) r = true →
      (lookupAL (analyse path (.ok data) rules cfg).detail r.name).isSome = true) ∧
    (((rules.filter (contributes data (goExt (lastComp path)))).map Rule.name).Nodup →
      ∀ r ∈ rules, contributes data (goExt (lastComp path)) r = true →
        lookupAL (analyse path (.ok data) rules cfg).detail r.name =
          some ⟨r, stringsCount data r.pattern⟩) := by
  refine ⟨analyse_ok_score path data rules cfg hz hs, ?_, ?_, ?_⟩
  · intro k hit hlook
    rw [analyse_ok_detail_lookup path data rules cfg hz hs k] at hlook
    rcases hfind : rules.reverse.find?
        (fun r => contributes data (goExt (lastComp path)) r && r.name == k) with _ | r
    · rw [hfind] at hlook; cases hlook
    · rw [hfind] at hlook
      have hpred := List.find?_some hfind
      have hmem := List.mem_reverse.1 (List.mem_of_find?_eq_some hfind)
      rw [Bool.and_eq_true, beq_iff_eq] at hpred
      exact ⟨r, hmem, hpred.1, hpred.2, (Option.some.inj hlook).symm⟩
  · intro r hmem hc
    rw [analyse_ok_detail_lookup path data rules cfg hz hs r.name]
    have : (rules.reverse.find?
        (fun x => contributes data (goExt (lastComp path)) x && x.name == r.name)).isSome := by
      rw [List.find?_isSome]
      exact ⟨r, List.mem_reverse.2 hmem, by rw [Bool.and_eq_true, beq_iff_eq]; exact ⟨hc, rfl⟩⟩
    rcases hfind : rules.reverse.find?
        (fun x => contributes data (goExt (lastComp path)) x && x.name == r.name) with _ | x
    · rw [hfind] at this; cases this
    · rfl
  · intro hnd r hmem hc
    rw [analyse_ok_detail_lookup path data rules cfg hz hs r.name]
    have hsome : (rules.reverse.find?
        (fun x => contributes data (goExt (lastComp path)) x && x.name == r.name)).isSome := by
      rw [List.find?_isSome]
      exact ⟨r, List.mem_reverse.2 hmem, by rw [Bool.and_eq_true, beq_iff_eq]; exact ⟨hc, rfl⟩⟩
    rcases hfind : rules.reverse.find?
        (fun x => contributes data (goExt (lastComp path)) x && x.name == r.name) with _ | x
    · rw [hfind] at hsome; cases hsome
    · have hpred := List.find?_some hfind
      rw [Bool.and_eq_true, beq_iff_eq] at hpred
      have hxmem := List.mem_reverse.1 (List.mem_of_find?_eq_some hfind)
      have hxr : x = r := by
        have hx' : x ∈ rules.filter (contributes data (goExt (lastComp path))) :=
          List.mem_filter.2 ⟨hxmem, hpred.1⟩
        have hr' : r ∈ rules.filter (contributes data (goExt (lastComp path))) :=
          List.mem_filter.2 ⟨hmem, hc⟩
        exact List.inj_on_of_nodup_map hnd hx' hr' hpred.2
      rw [hxr]

/-- Claim C1, counterexample: two distinct rules both named "dup" both
contribute to the content "ab", but the Detail map does not contain the
first of them with its count — it was overwritten by the later rule — so
"the Detail map contains exactly those contributing rules, keyed by rule
name, with their counts" fails as stated. -/
theorem claimC1_counterexample :
    ¬ (∀ r ∈ [({ name := "dup", pattern := [97], weight := 1 } : Rule),
              ({ name := "dup", pattern := [98], weight := 2 } : Rule)],
        contributes [97, 98] (goExt (lastComp ["f"])) r = true →
          lookupAL (analyse ["f"] (.ok [97, 98])
              [{ name := "dup", pattern := [97], weight := 1 },
               { name := "dup", pattern := [98], weight := 2 }]
              { threshold := 3 }).detail r.name =
            some ⟨r, stringsCount [97, 98] r.pattern⟩) := by
  decide

/-- Witness for claim C1 at a concrete input (the spec's own scenario:
`smelly.md` containing one markdown horizontal rule). -/
theorem claimC1_witness :
    (([88, 10, 45, 45, 45, 10, 89] : List Nat).contains 0 = false) ∧
    (¬ (0 < (30 : Int) ∧ False)) ∧
    (analyse ["smelly.md"] (.ok [88, 10, 45, 45, 45, 10, 89])
        [{ name := "markdown-hrule", pattern := [10, 45, 45, 45, 10], weight := 30,
           ext := ".md" }]
        { threshold := 30 }).score =
      (([({ name := "markdown-hrule", pattern := [10, 45, 45, 45, 10], weight := 30,
            ext := ".md" } : Rule)].filter
          (contributes [88, 10, 45, 45, 45, 10, 89] (goExt (lastComp ["smelly.md"])))).map
        (fun r => (stringsCount [88, 10, 45, 45, 45, 10, 89] r.pattern : Int) * r.weight)).sum :=
  ⟨by decide, by decide,
    (claimC1 ["smelly.md"] [88, 10, 45, 45, 45, 10, 89]
      [{ name := "markdown-hrule", pattern := [10, 45, 45, 45, 10], weight := 30,
         ext := ".md" }]
      { threshold := 30 } (by decide) (by decide)).1⟩

/-! ## Claim C2 -/

/-- Claim C2 (amended): whenever the configured threshold is positive (the
CLI default is 30 and the environment parser rejects values below 1, but
`-t 0` still reaches the scanner), every Result of a scan satisfies
`Smelly = true ↔ Score ≥ Threshold`; and for every file the score, detail
and path of its result do not depend on the threshold at all.  (For a
non-positive threshold the equivalence fails on gated files, which always
come out non-smelly; see the counterexample.) -/
theorem claimC2 (rulesRes : Except Unit (List Rule))
    (roots : List (GoPath × Except Unit FsTree)) (cfg : Config) (rs : List Result)
    (h : Scan rulesRes roots cfg = .ok rs) (hpos : 0 < cfg.threshold) :
    (∀ res ∈ rs, res.smelly = true ↔ cfg.threshold ≤ res.score) ∧
    (∀ (path : GoPath) (acq : FileData) (rules : List Rule) (t t' : Int),
      (analyse path acq rules { cfg with threshold := t }).score =
        (analyse path acq rules { cfg with threshold := t' }).score ∧
      (analyse path acq rules { cfg with threshold := t }).detail =
        (analyse path acq rules { cfg with threshold := t' }).detail) := by
  constructor
  · intro res hres
    obtain ⟨rules, ds, hr, hw, hrs⟩ := Scan_ok_inv h
    subst hrs
    have hmem : res ∈ ds.map (fun pd => analyse pd.1 pd.2 rules cfg) :=
      (sortResults_perm _).subset hres
    obtain ⟨pd, hpd, heq⟩ := List.mem_map.1 hmem
    rw [← heq]
    exact analyse_smelly_iff pd.1 pd.2 rules cfg hpos
  · intro path acq rules t t'
    exact ⟨(analyse_threshold_indep path acq rules cfg t t').1,
      (analyse_threshold_indep path acq rules cfg t t').2.1⟩

/-- Claim C2, counterexample: a scan of a binary file (content `[0]`) with
threshold 0 produces its zero-value Result with `Smelly = false` although
`Score = 0 ≥ 0 = Threshold`, refuting `Smelly ⇔ Score ≥ Threshold` as
stated (the library accepts non-positive thresholds, e.g. `-t 0`). -/
theorem claimC2_counterexample :
    Scan (.ok []) [(["b"], .ok (.file (.ok [0])))] { threshold := 0 } =
      .ok [{ path := "b" }] ∧
    ¬ (({ path := "b" } : Result).smelly = true ↔
        ({ threshold := 0 } : Config).threshold ≤ ({ path := "b" } : Result).score) := by
  constructor
  · simp [Scan, walkDirBreadthFirst, rootPhase, walkQueue, isDictPath, sortResults,
      List.insertionSort, analyse, zeroResult]
    rfl
  · decide

/-- Witness for claim C2 at a concrete scan: one file "a" containing one
occurrence of a weight-10 rule under threshold 10 is smelly. -/
theorem claimC2_witness :
    (({ path := "a", score := 10,
        detail := [("r", ⟨{ name := "r", pattern := [65], weight := 10 }, 1⟩)],
        smelly := true } : Result).smelly = true ↔
      ({ threshold := 10 } : Config).threshold ≤
        ({ path := "a", score := 10,
           detail := [("r", ⟨{ name := "r", pattern := [65], weight := 10 }, 1⟩)],
           smelly := true } : Result).score) := by
  have hscan : Scan (.ok [{ name := "r", pattern := [65], weight := 10 }])
      [(["a"], .ok (.file (.ok [65])))] { threshold := 10 } =
      .ok [{ path := "a", score := 10,
             detail := [("r", ⟨{ name := "r", pattern := [65], weight := 10 }, 1⟩)],
             smelly := true }] := by
    simp [Scan, walkDirBreadthFirst, rootPhase, walkQueue, isDictPath, sortResults,
      List.insertionSort, analyse, zeroResult, scoreStep, stringsCount, countOcc,
      countOccAux, contributes, Rule.appliesToExt, Rule.passesThresholds, insertAL]
    rfl
  exact (claimC2 _ _ _ _ hscan (by decide)).1 _ (List.mem_cons_self _ _)

/-! ## Claim C7 -/

/-- Claim C7: with a positive size limit, any acquired content longer than
the limit yields the zero-value Result (the check runs after acquisition;
an acquisition failure yields the zero result regardless of any size); with
a non-positive limit the size check never rejects: the result is the same
as under a limit large enough for the file. -/
theorem claimC7 (path : GoPath) (rules : List Rule) (cfg : Config) (data : List Nat) :
    (0 < cfg.maxSize → cfg.maxSize < (data.length : Int) →
      analyse path (.ok data) rules cfg = zeroResult path) ∧
    (analyse path (.error ()) rules cfg = zeroResult path) ∧
    (cfg.maxSize ≤ 0 →
      analyse path (.ok data) rules cfg =
        analyse path (.ok data) rules { cfg with maxSize := (data.length : Int) + 1 }) := by
  refine ⟨?_, rfl, ?_⟩
  · intro h1 h2
    rw [analyse]
    split
    · rfl
    · rw [if_pos ⟨h1, h2⟩]
  · intro hm
    simp only [analyse]
    dsimp only
    split
    · rfl
    · rw [if_neg (by omega : ¬ (0 < cfg.maxSize ∧ cfg.maxSize < (data.length : Int))),
        if_neg (by omega :
          ¬ (0 < (data.length : Int) + 1 ∧ (data.length : Int) + 1 < (data.length : Int)))]

/-- Witness for claim C7: a 3-byte file under limit 2 yields the zero
result. -/
theorem claimC7_witness :
    analyse ["big.txt"] (.ok [65, 65, 65]) [] { threshold := 1, maxSize := 2 } =
      zeroResult ["big.txt"] :=
  (claimC7 ["big.txt"] [] { threshold := 1, maxSize := 2 } [65, 65, 65]).1
    (by decide) (by decide)

/-! ## Claim C10 -/

theorem find?_reverse_last {A l3 : List Rule} {p : Rule → Bool} {r2 : Rule}
    (h2 : p r2 = true) (h3 : ∀ x ∈ l3, p x = false) :
    (A ++ r2 :: l3).reverse.find? p = some r2 := by
  rw [List.reverse_append, List.reverse_cons, List.find?_append, List.find?_append]
  have hnone : l3.reverse.find? p = none := by
    rw [List.find?_eq_none]
    intro x hx
    rw [List.mem_reverse] at hx
    simp [h3 x hx]
  rw [hnone, List.find?_cons_of_pos _ h2]
  rfl

/-- Claim C10: with two distinct rules of the same name, both contributing,
and no other rule of that name, the score still sums both contributions but
the detail map holds (under that name) only the hit of the rule occurring
later in the rule list. -/
theorem claimC10 (path : GoPath) (data : List Nat) (cfg : Config)
    (l1 l2 l3 : List Rule) (r1 r2 : Rule)
    (hz : data.contains 0 = false)
    (hs : ¬ (0 < cfg.maxSize ∧ cfg.maxSize < (data.length : Int)))
    (hname : r1.name = r2.name)
    (hc1 : contributes data (goExt (lastComp path)) r1 = true)
    (hc2 : contributes data (goExt (lastComp path)) r2 = true)
    (honly : ∀ r ∈ l1 ++ l2 ++ l3, r.name ≠ r1.name) :
    r1 ∈ (l1 ++ r1 :: l2 ++ r2 :: l3).filter (contributes data (goExt (lastComp path))) ∧
    r2 ∈ (l1 ++ r1 :: l2 ++ r2 :: l3).filter (contributes data (goExt (lastComp path))) ∧
    (analyse path (.ok data) (l1 ++ r1 :: l2 ++ r2 :: l3) cfg).score =
      (((l1 ++ r1 :: l2 ++ r2 :: l3).filter
          (contributes data (goExt (lastComp path)))).map
        (fun r => (stringsCount data r.pattern : Int) * r.weight)).sum ∧
    lookupAL (analyse path (.ok data) (l1 ++ r1 :: l2 ++ r2 :: l3) cfg).detail r1.name =
      some ⟨r2, stringsCount data r2.pattern⟩ := by
  refine ⟨List.mem_filter.2 ⟨by simp, hc1⟩, List.mem_filter.2 ⟨by simp, hc2⟩,
    analyse_ok_score _ _ _ _ hz hs, ?_⟩
  rw [analyse_ok_detail_lookup path data _ cfg hz hs r1.name]
  have hsplit : l1 ++ r1 :: l2 ++ r2 :: l3 = (l1 ++ r1 :: l2) ++ r2 :: l3 := by simp
  rw [hsplit, find?_reverse_last]
  · rw [Bool.and_eq_true, beq_iff_eq]
    exact ⟨hc2, hname.symm⟩
  · intro x hx
    have hx' : x.name ≠ r1.name := honly x (by simp [hx])
    simp [hx']

/-- Witness for claim C10: rules `dup/a/1` and `dup/b/2` on content "ab":
the score is 3 but the detail holds only the second rule's hit, and the sum
over the detail entries is 2 ≠ 3. -/
theorem claimC10_witness :
    lookupAL (analyse ["f"] (.ok [97, 98])
        [{ name := "dup", pattern := [97], weight := 1 },
         { name := "dup", pattern := [98], weight := 2 }] { threshold := 3 }).detail
      "dup" = some ⟨{ name := "dup", pattern := [98], weight := 2 }, 1⟩ ∧
    (analyse ["f"] (.ok [97, 98])
        [{ name := "dup", pattern := [97], weight := 1 },
         { name := "dup", pattern := [98], weight := 2 }] { threshold := 3 }).score = 3 ∧
    ((analyse ["f"] (.ok [97, 98])
        [{ name := "dup", pattern := [97], weight := 1 },
         { name := "dup", pattern := [98], weight := 2 }] { threshold := 3 }).detail.map
      (fun kv => (kv.2.count : Int) * kv.2.rule.weight)).sum = 2 :=
  ⟨(claimC10 ["f"] [97, 98] { threshold := 3 } [] [] []
      { name := "dup", pattern := [97], weight := 1 }
      { name := "dup", pattern := [98], weight := 2 }
      (by decide) (by decide) (by decide) (by decide) (by decide)
      (by intro r hr; cases hr)).2.2.2,
    by decide, by decide⟩

/-! ## Claim C3 -/

theorem lastComp_concat (d : GoPath) (n : String) : lastComp (d ++ [n]) = n := by
  simp [lastComp]

/-- Claim C3 (amended): every successful scan returns a list sorted
(non-strictly) by path with exactly one Result per dispatched file; when no
two dispatched files render to the same path — in particular when the
roots do not overlap — the list is strictly sorted by path with no
duplicate paths.  (With overlapping roots the same path is dispatched twice
and appears twice; see the counterexample.) -/
theorem claimC3 {rulesRes : Except Unit (List Rule)}
    {roots : List (GoPath × Except Unit FsTree)} {cfg : Config} {rs : List Result}
    (h : Scan rulesRes roots cfg = .ok rs) :
    rs.Sorted pathLe ∧
    ∀ rules ds, rulesRes = .ok rules →
      walkDirBreadthFirst roots cfg.dictPath = .ok ds →
      rs.length = ds.length ∧
      ((ds.map (fun pd => renderPath pd.1)).Nodup →
        rs.Sorted (fun a b => a.path < b.path)) := by
  obtain ⟨rules₀, ds₀, hr₀, hw₀, hrs⟩ := Scan_ok_inv h
  subst hrs
  refine ⟨sortResults_sorted _, ?_⟩
  intro rules ds hr hw
  have hre : rules = rules₀ := Except.ok.inj (hr.symm.trans hr₀)
  subst hre
  have hde : ds = ds₀ := Except.ok.inj (hw.symm.trans hw₀)
  subst hde
  constructor
  · rw [(sortResults_perm _).length_eq, List.length_map]
  · intro hnd
    have hpaths : List.Perm
        ((sortResults (ds.map (fun pd => analyse pd.1 pd.2 rules cfg))).map Result.path)
        (ds.map (fun pd => renderPath pd.1)) := by
      have h1 : (ds.map (fun pd => analyse pd.1 pd.2 rules cfg)).map Result.path =
          ds.map (fun pd => renderPath pd.1) := by
        rw [List.map_map]
        exact List.map_congr_left (fun pd _ => analyse_path_eq pd.1 pd.2 rules cfg)
      rw [← h1]
      exact (sortResults_perm _).map Result.path
    have hnd' : ((sortResults (ds.map (fun pd => analyse pd.1 pd.2 rules cfg))).map
        Result.path).Nodup := (hpaths.nodup_iff).2 hnd
    have hne : (sortResults (ds.map (fun pd => analyse pd.1 pd.2 rules cfg))).Pairwise
        (fun a b => a.path ≠ b.path) := List.pairwise_map.1 hnd'
    have hsorted := sortResults_sorted (ds.map (fun pd => analyse pd.1 pd.2 rules cfg))
    exact (hsorted.and hne).imp (fun hab => lt_of_le_of_ne hab.1 hab.2)

/-- Claim C3, counterexample: with the two distinct roots `d` (a directory
containing file `f`) and `d/f` (that same file), the path `d/f` is
dispatched twice, so the returned list holds two Results with the same path
and is not strictly sorted. -/
theorem claimC3_counterexample :
    Scan (.ok []) [(["d"], .ok (.dir (.ok [("f", .file (.ok [65]))]))),
                   (["d", "f"], .ok (.file (.ok [65])))] { threshold := 1 } =
      .ok [{ path := "d/f" }, { path := "d/f" }] ∧
    ¬ (([{ path := "d/f" }, { path := "d/f" }] : List Result).Sorted
        (fun a b => a.path < b.path)) := by
  constructor
  · simp +decide [Scan, walkDirBreadthFirst, rootPhase, walkQueue, isDictPath, sortResults,
      List.insertionSort, analyse, zeroResult, dirEntries, fileEntries, entryDispatch,
      goExt, goExtAux, List.orderedInsert, List.filterMap_cons]
  · intro hh
    have := List.rel_of_pairwise_cons hh (List.mem_cons_self _ _)
    exact absurd this (lt_irrefl _)

/-- Witness for claim C3 at a concrete scan of two root files. -/
theorem claimC3_witness :
    ([({ path := "a" } : Result), { path := "b" }] : List Result).Sorted pathLe := by
  have hscan : Scan (.ok []) [(["b"], .ok (.file (.ok [66]))),
      (["a"], .ok (.file (.ok [65])))] { threshold := 1 } =
      .ok [{ path := "a" }, { path := "b" }] := by
    simp +decide [Scan, walkDirBreadthFirst, rootPhase, walkQueue, isDictPath, sortResults,
      List.insertionSort, analyse, zeroResult, List.orderedInsert, pathLe, renderPath]
  exact (claimC3 hscan).1

/-! ## Claim C4 -/

theorem analyse_workers_indep (path : GoPath) (acq : FileData) (rules : List Rule)
    (cfg : Config) (w w' : Int) :
    analyse path acq rules { cfg with workers := w } =
      analyse path acq rules { cfg with workers := w' } := by
  cases acq <;> rfl

/-- Claim C4: determinism.  `Scan` is a function of its inputs, so repeated
scans of an unchanged tree with unchanged rules return the identical sorted
list; the result does not depend on the configured worker count; and any
arrival order of the per-file results — the only freedom worker scheduling
and batching have — sorts to the same final list, provided equal rendered
paths carry equal dispatches (one immutable file system). -/
theorem claimC4 (rulesRes : Except Unit (List Rule))
    (roots : List (GoPath × Except Unit FsTree)) (cfg : Config) (w w' : Int)
    (rules : List Rule) (ds : List Dispatch) (arrived : List Result)
    (hrules : rulesRes = .ok rules)
    (hwalk : walkDirBreadthFirst roots cfg.dictPath = .ok ds)
    (hperm : arrived.Perm (ds.map (fun pd => analyse pd.1 pd.2 rules cfg)))
    (hfs : ∀ pd ∈ ds, ∀ pd' ∈ ds, renderPath pd.1 = renderPath pd'.1 → pd = pd') :
    Scan rulesRes roots { cfg with workers := w } =
      Scan rulesRes roots { cfg with workers := w' } ∧
    sortResults arrived = sortResults (ds.map (fun pd => analyse pd.1 pd.2 rules cfg)) := by
  constructor
  · rw [Scan.eq_def, Scan.eq_def, hrules]
    dsimp only
    rw [hwalk]
    dsimp only
    have : ds.map (fun pd => analyse pd.1 pd.2 rules { cfg with workers := w }) =
        ds.map (fun pd => analyse pd.1 pd.2 rules { cfg with workers := w' }) :=
      List.map_congr_left (fun pd _ => analyse_workers_indep pd.1 pd.2 rules cfg w w')
    rw [this]
  · have hties : ∀ a ∈ sortResults arrived, ∀ b ∈ sortResults arrived,
        a.path = b.path → a = b := by
      intro a ha b hb hab
      have ha' : a ∈ ds.map (fun pd => analyse pd.1 pd.2 rules cfg) :=
        hperm.subset ((sortResults_perm arrived).subset ha)
      have hb' : b ∈ ds.map (fun pd => analyse pd.1 pd.2 rules cfg) :=
        hperm.subset ((sortResults_perm arrived).subset hb)
      obtain ⟨pda, hpda, rfl⟩ := List.mem_map.1 ha'
      obtain ⟨pdb, hpdb, rfl⟩ := List.mem_map.1 hb'
      rw [analyse_path_eq, analyse_path_eq] at hab
      rw [hfs pda hpda pdb hpdb hab]
    have hp : (sortResults arrived).Perm
        (sortResults (ds.map (fun pd => analyse pd.1 pd.2 rules cfg))) :=
      ((sortResults_perm arrived).trans hperm).trans
        (sortResults_perm (ds.map (fun pd => analyse pd.1 pd.2 rules cfg))).symm
    exact sorted_perm_eq_of_ties hp (sortResults_sorted _) (sortResults_sorted _) hties

/-- Witness for claim C4: two root files arriving in reversed order sort to
the same list. -/
theorem claimC4_witness :
    sortResults [({ path := "b" } : Result), { path := "a" }] =
      sortResults ([(["a"], Except.ok [65]), (["b"], Except.ok [66])].map
        (fun pd : Dispatch => analyse pd.1 pd.2 [] ({ threshold := 1 } : Config))) := by
  have hwalk : walkDirBreadthFirst [(["a"], .ok (.file (.ok [65]))),
      (["b"], .ok (.file (.ok [66])))] ({ threshold := 1 } : Config).dictPath =
      .ok [(["a"], Except.ok [65]), (["b"], Except.ok [66])] := by
    simp [walkDirBreadthFirst, rootPhase, walkQueue, isDictPath]
  exact (claimC4 (.ok []) [(["a"], .ok (.file (.ok [65]))), (["b"], .ok (.file (.ok [66])))]
    { threshold := 1 } 0 4 [] [(["a"], Except.ok [65]), (["b"], Except.ok [66])]
    [{ path := "b" }, { path := "a" }] rfl hwalk (by decide) (by decide)).2

/-! ## Claim C5 -/

/-- Claim C5: `Scan` fails exactly when rule loading fails or the
enumeration fails (root stat error, unreadable directory listing); with
loadable rules and hereditarily readable roots the scan succeeds no matter
what individual files contain — and every dispatched file whose
acquisition failed, whose content holds a zero byte, or whose content
exceeds a positive size limit contributes exactly its zero-value Result
(score 0, empty detail, not smelly), affecting no other path. -/
theorem claimC5 (rulesRes : Except Unit (List Rule))
    (roots : List (GoPath × Except Unit FsTree)) (cfg : Config) :
    ((∃ e, Scan rulesRes roots cfg = .error e) ↔
      (∃ e, rulesRes = .error e) ∨
        (∃ e, walkDirBreadthFirst roots cfg.dictPath = .error e)) ∧
    ((∀ rt ∈ roots, ∃ t, rt.2 = .ok t ∧ FsTree.allDirsOk t = true) →
      (∃ rules, rulesRes = .ok rules) →
      ∃ rs, Scan rulesRes roots cfg = .ok rs) ∧
    (∀ rules ds rs, rulesRes = .ok rules →
      walkDirBreadthFirst roots cfg.dictPath = .ok ds →
      Scan rulesRes roots cfg = .ok rs →
      ∀ pd ∈ ds,
        analyse pd.1 pd.2 rules cfg ∈ rs ∧
        (pd.2 = .error () → analyse pd.1 pd.2 rules cfg = zeroResult pd.1) ∧
        (∀ data, pd.2 = .ok data → data.contains 0 = true →
          analyse pd.1 pd.2 rules cfg = zeroResult pd.1) ∧
        (∀ data, pd.2 = .ok data → 0 < cfg.maxSize → cfg.maxSize < (data.length : Int) →
          analyse pd.1 pd.2 rules cfg = zeroResult pd.1)) := by
  refine ⟨Scan_error_iff rulesRes roots cfg, ?_, ?_⟩
  · intro hall ⟨rules, hr⟩
    obtain ⟨ds, hds⟩ := walkDir_isOk_of_allOk roots cfg.dictPath hall
    refine ⟨sortResults (ds.map (fun pd => analyse pd.1 pd.2 rules cfg)), ?_⟩
    rw [Scan.eq_def, hr]
    dsimp only
    rw [hds]
  · intro rules ds rs hr hw hs pd hpd
    obtain ⟨rules₀, ds₀, hr₀, hw₀, hrs⟩ := Scan_ok_inv hs
    have hre : rules = rules₀ := Except.ok.inj (hr.symm.trans hr₀)
    subst hre
    have hde : ds = ds₀ := Except.ok.inj (hw.symm.trans hw₀)
    subst hde
    subst hrs
    refine ⟨(sortResults_perm _).mem_iff.2 (List.mem_map_of_mem _ hpd), ?_, ?_, ?_⟩
    · intro hda
      rw [hda]
      rfl
    · intro data hda hz
      rw [hda, analyse]
      rw [if_pos hz]
    · intro data hda h1 h2
      rw [hda, analyse]
      split
      · rfl
      · rw [if_pos ⟨h1, h2⟩]

/-- Witness for claim C5: a tree whose only directory is readable but whose
files are an unreadable file, a binary file and (with `MaxSize = 1`) an
oversized file still scans successfully, to three zero results. -/
theorem claimC5_witness :
    ∃ rs, Scan (.ok []) [(["d"], .ok (.dir (.ok
        [("bad", .file (.error ())), ("bin", .file (.ok [0])),
         ("big", .file (.ok [65, 65]))])))]
      { threshold := 1, maxSize := 1 } = .ok rs :=
  (claimC5 (.ok []) [(["d"], .ok (.dir (.ok
      [("bad", .file (.error ())), ("bin", .file (.ok [0])),
       ("big", .file (.ok [65, 65]))])))] { threshold := 1, maxSize := 1 }).2.1
    (by
      intro rt hrt
      rcases List.mem_cons.1 hrt with hh | hh
      · subst hh
        refine ⟨_, rfl, ?_⟩
        simp [FsTree.allDirsOk, Listing.allDirsOk]
      · cases hh)
    ⟨[], rfl⟩

/-! ## Claim C9 -/

/-- Claim C9 (amended): in a successful scan every Result comes from a
dispatched file that (i) lies below some root without any `.git` component
strictly between the root and the file name, and (ii) is not the
rule-dictionary path; and (iii) unless the file is itself a root, it passed
the rule-file heuristic: it is not a non-empty structured-data file whose
content contains both heuristic tokens.  (A root that is itself such a
rule-like file is scanned — the heuristic only guards files discovered
inside directories; see the counterexample refuting the unrestricted
claim.) -/
theorem claimC9 {rulesRes : Except Unit (List Rule)}
    {roots : List (GoPath × Except Unit FsTree)} {cfg : Config} {rs : List Result}
    (h : Scan rulesRes roots cfg = .ok rs) :
    ∀ res ∈ rs, ∃ dp : Dispatch,
      res.path = renderPath dp.1 ∧
      isDictPath cfg.dictPath dp.1 = false ∧
      (∃ rt ∈ roots, ∃ cs : List String, dp.1 = rt.1 ++ cs ∧ ".git" ∉ cs.dropLast) ∧
      ((dp.1, Except.ok (FsTree.file dp.2)) ∈ roots ∨
        ((toLowerStr (goExt (lastComp dp.1)) = ".yaml" ∨
            toLowerStr (goExt (lastComp dp.1)) = ".yml" ∨
            toLowerStr (goExt (lastComp dp.1)) = ".json") →
          ∀ data, dp.2 = .ok data →
            ¬ (data ≠ [] ∧ containsSub patternTok data = true ∧
                containsSub weightTok data = true))) := by
  obtain ⟨rules, ds, hr, hw, hrs⟩ := Scan_ok_inv h
  subst hrs
  intro res hres
  have hmem : res ∈ ds.map (fun pd => analyse pd.1 pd.2 rules cfg) :=
    (sortResults_perm _).subset hres
  obtain ⟨pd, hpd, heq⟩ := List.mem_map.1 hmem
  have hinv := walkDir_dispatch_inv hw
    (fun p => ∃ rt ∈ roots, ∃ cs : List String, p = rt.1 ++ cs ∧ ".git" ∉ cs)
    (fun rt hrt => ⟨rt, hrt, [], by simp⟩)
    (fun p n ⟨rt, hrt, cs, hp, hg⟩ hn =>
      ⟨rt, hrt, cs ++ [n], by rw [hp, List.append_assoc], by
        intro hmem
        rcases List.mem_append.1 hmem with hh | hh
        · exact hg hh
        · exact hn (List.mem_singleton.1 hh).symm⟩)
    pd hpd
  refine ⟨pd, by rw [← heq, analyse_path_eq], ?_⟩
  rcases hinv with ⟨hroot, hdict⟩ | ⟨d, n, fd, hP, hdisp⟩
  · exact ⟨hdict, ⟨_, hroot, [], by simp, by simp⟩, Or.inl hroot⟩
  · obtain ⟨hdp, hdict, hheur⟩ := entryDispatch_some_inv hdisp
    obtain ⟨rt, hrt, cs, hd, hg⟩ := hP
    refine ⟨by rw [hdp]; exact hdict, ?_, ?_⟩
    · refine ⟨rt, hrt, cs ++ [n], ?_, ?_⟩
      · rw [hdp]
        dsimp only
        rw [hd, List.append_assoc]
      · rw [List.dropLast_concat]
        exact hg
    · refine Or.inr ?_
      have hlast : lastComp pd.1 = n := by rw [hdp]; exact lastComp_concat d n
      rw [hlast]
      intro hext data hdata
      exact hheur hext data (by rw [← hdata, hdp])

/-- Claim C9, counterexample: a root that is itself a non-empty `.yaml`
file containing both "pattern" and "weight" is dispatched and appears in
the Result list — the rule-file heuristic does not guard root files. -/
theorem claimC9_counterexample :
    Scan (.ok [])
      [(["r.yaml"], .ok (.file (.ok
        [112, 97, 116, 116, 101, 114, 110, 32, 119, 101, 105, 103, 104, 116])))]
      { threshold := 1 } = .ok [{ path := "r.yaml" }] ∧
    toLowerStr (goExt (lastComp ["r.yaml"])) = ".yaml" ∧
    containsSub patternTok
      [112, 97, 116, 116, 101, 114, 110, 32, 119, 101, 105, 103, 104, 116] = true ∧
    containsSub weightTok
      [112, 97, 116, 116, 101, 114, 110, 32, 119, 101, 105, 103, 104, 116] = true ∧
    ([112, 97, 116, 116, 101, 114, 110, 32, 119, 101, 105, 103, 104, 116] : List Nat) ≠ [] := by
  refine ⟨?_, by decide, by decide, by decide, by decide⟩
  simp [Scan, walkDirBreadthFirst, rootPhase, walkQueue, isDictPath, sortResults,
    List.insertionSort, analyse, zeroResult]
  rfl

/-- Witness for claim C9 at a concrete scan of a directory with one plain
text file. -/
theorem claimC9_witness :
    ∃ dp : Dispatch,
      ({ path := "d/f.txt" } : Result).path = renderPath dp.1 ∧
      isDictPath none dp.1 = false ∧
      (∃ rt ∈ ([(["d"], Except.ok (FsTree.dir (.ok [("f.txt", .file (.ok [65]))])))] :
          List (GoPath × Except Unit FsTree)),
        ∃ cs : List String, dp.1 = rt.1 ++ cs ∧ ".git" ∉ cs.dropLast) ∧
      (((dp.1, Except.ok (FsTree.file dp.2)) : GoPath × Except Unit FsTree) ∈
          [((["d"] : GoPath), Except.ok (FsTree.dir (.ok
            [("f.txt", .file (.ok [65]))])))] ∨
        ((toLowerStr (goExt (lastComp dp.1)) = ".yaml" ∨
            toLowerStr (goExt (lastComp dp.1)) = ".yml" ∨
            toLowerStr (goExt (lastComp dp.1)) = ".json") →
          ∀ data, dp.2 = .ok data →
            ¬ (data ≠ [] ∧ containsSub patternTok data = true ∧
                containsSub weightTok data = true))) := by
  have hscan : Scan (.ok []) [(["d"], .ok (.dir (.ok [("f.txt", .file (.ok [65]))])))]
      { threshold := 1 } = .ok [{ path := "d/f.txt" }] := by
    simp +decide [Scan, walkDirBreadthFirst, rootPhase, walkQueue, isDictPath, sortResults,
      List.insertionSort, analyse, zeroResult, dirEntries, fileEntries, entryDispatch,
      goExt, goExtAux, toLowerStr, List.filterMap_cons]
  exact claimC9 hscan _ (List.mem_cons_self _ _)

/-! ## The ignore matcher (ignore.go)

Paths are again clean relative component lists; `filepath.Rel` of an
ancestor is dropping its components, `filepath.Dir` is `dropLast`,
`filepath.Base` is the last component.  Go's byte positions coincide with
character positions here because every byte offset `strings.Index` can
return on valid UTF-8 text lies on a character boundary. -/

/-- `IgnorePattern` from ignore.go. -/
structure IgnorePattern where
  pattern : String
  negate : Bool := false
  directory : Bool := false
  root : Bool := false
  deriving DecidableEq, Repr

/-- `getEsc` of Go `filepath.Match`: read one (possibly `\\`-escaped)
character of a range; fails on `-`, `]`, an exhausted pattern, or when
nothing follows the character (the class then cannot be closed). -/
def getEsc : List Char → Option (Char × List Char)
  | [] => none
  | '-' :: _ => none
  | ']' :: _ => none
  | '\\' :: rest =>
    match rest with
    | [] => none
    | c :: rest' => if rest' = [] then none else some (c, rest')
  | c :: rest => if rest = [] then none else some (c, rest)

theorem getEsc_length {l : List Char} {c : Char} {rest : List Char}
    (h : getEsc l = some (c, rest)) : rest.length < l.length := by
  rw [getEsc.eq_def] at h
  split at h
  · cases h
  · cases h
  · cases h
  · split at h
    · cases h
    · split at h
      · cases h
      · simp only [Option.some.injEq, Prod.mk.injEq] at h
        obtain ⟨rfl, rfl⟩ := h
        simp
        omega
  · split at h
    · cases h
    · simp only [Option.some.injEq, Prod.mk.injEq] at h
      obtain ⟨rfl, rfl⟩ := h
      simp

/-- The range-collecting loop of the `[...]` case of Go `filepath.Match`:
ranges until the closing `]` (at least one required), `none` on a
malformed class. -/
def parseRanges (first : Bool) (l : List Char) :
    Option (List (Char × Char) × List Char) :=
  match l with
  | ']' :: rest => if first then none else some ([], rest)
  | l =>
    match hg : getEsc l with
    | none => none
    | some (lo, l1) =>
      match l1 with
      | '-' :: l2 =>
        match hg2 : getEsc l2 with
        | none => none
        | some (hi, l3) =>
          match parseRanges false l3 with
          | none => none
          | some (rs, rest) => some ((lo, hi) :: rs, rest)
      | l1 =>
        match parseRanges false l1 with
        | none => none
        | some (rs, rest) => some ((lo, lo) :: rs, rest)
  termination_by l.length
  decreasing_by
    · have h1 := getEsc_length hg
      have h2 := getEsc_length hg2
      simp at h1
      omega
    · have h1 := getEsc_length hg
      omega

theorem parseRanges_length_aux : ∀ (n : Nat) {first : Bool} {l : List Char}
    {rs : List (Char × Char)} {rest : List Char}, l.length ≤ n →
    parseRanges first l = some (rs, rest) → rest.length < l.length := by
  intro n
  induction n with
  | zero =>
    intro first l rs rest hlen h
    have hl : l = [] := List.length_eq_zero.1 (Nat.le_zero.1 hlen)
    subst hl
    rw [parseRanges.eq_def] at h
    simp [getEsc] at h
  | succ n ih =>
    intro first l rs rest hlen h
    rw [parseRanges.eq_def] at h
    split at h
    · split at h
      · cases h
      · simp only [Option.some.injEq, Prod.mk.injEq] at h
        obtain ⟨rfl, rfl⟩ := h
        simp
    · rename_i l' hne
      split at h
      · cases h
      · rename_i lo l1 hg
        have hg1 := getEsc_length hg
        split at h
        · rename_i l2
          split at h
          · cases h
          · rename_i hi l3 hg2
            have hg3 := getEsc_length hg2
            split at h
            · cases h
            · rename_i rs' rest' hpr
              simp only [List.length_cons] at hg1
              have hlt := ih (by omega) hpr
              simp only [Option.some.injEq, Prod.mk.injEq] at h
              obtain ⟨-, h2⟩ := h
              subst h2
              omega
        · rename_i l1' hnd
          split at h
          · cases h
          · rename_i rs' rest' hpr
            have hlt := ih (by omega) hpr
            simp only [Option.some.injEq, Prod.mk.injEq] at h
            obtain ⟨-, h2⟩ := h
            subst h2
            omega

theorem parseRanges_length {first : Bool} {l : List Char}
    {rs : List (Char × Char)} {rest : List Char}
    (h : parseRanges first l = some (rs, rest)) : rest.length < l.length :=
  parseRanges_length_aux l.length le_rfl h

/-- Go `filepath.Match` (unix) over character lists: `*` matches any run of
non-separator characters, `?` one non-separator character, `[...]` a
character class (optionally negated with `^`), `\\c` the literal `c`; a
malformed pattern matches nothing.  Adjacent stars collapse and the
chunk-restart backtracking of Go's scan is rendered by the two-armed `*`
case. -/
def fpMatch : List Char → List Char → Bool
  | [], n => n.isEmpty
  | '*' :: ps, [] => fpMatch ps []
  | '*' :: ps, c :: ns => fpMatch ps (c :: ns) || (decide (c ≠ '/') && fpMatch ('*' :: ps) ns)
  | '?' :: ps, c :: ns => decide (c ≠ '/') && fpMatch ps ns
  | ['\\'], _ => false
  | '\\' :: pc :: ps, c :: ns => decide (pc = c) && fpMatch ps ns
  | '[' :: ps, c :: ns =>
    (match ps with
      | '^' :: t =>
        match hpr : parseRanges true t with
        | none => false
        | some (ranges, rest) =>
          (!(ranges.any (fun r => decide (r.1 ≤ c) && decide (c ≤ r.2)))) && fpMatch rest ns
      | ps' =>
        match hpr : parseRanges true ps' with
        | none => false
        | some (ranges, rest) =>
          (ranges.any (fun r => decide (r.1 ≤ c) && decide (c ≤ r.2))) && fpMatch rest ns)
  | pc :: ps, c :: ns => decide (pc = c) && fpMatch ps ns
  | _ :: _, [] => false
  termination_by p n => p.length + n.length
  decreasing_by
    · simp only [List.length_cons]; omega
    · simp only [List.length_cons]; omega
    · simp only [List.length_cons]; omega
    · simp only [List.length_cons]; omega
    · simp only [List.length_cons]; omega
    · have := parseRanges_length hpr
      simp only [List.length_cons]
      omega
    · have := parseRanges_length hpr
      simp only [List.length_cons]
      omega
    · simp only [List.length_cons]; omega

/-- `strings.Split(pattern, "*")`. -/
def splitStar : List Char → List (List Char)
  | [] => [[]]
  | '*' :: rest => [] :: splitStar rest
  | c :: rest =>
    match splitStar rest with
    | [] => [[c]]
    | p :: ps => (c :: p) :: ps

/-- Go `strings.Index` (first occurrence; character offsets, which agree
with Go's byte offsets on valid UTF-8). -/
def strIndex (s sub : List Char) : Option Nat :=
  match s with
  | [] => if sub.isEmpty then some 0 else none
  | c :: cs =>
    if sub.isPrefixOf (c :: cs) then some 0
    else
      match strIndex cs sub with
      | none => none
      | some i => some (i + 1)

/-- The multi-`*` loop of `matchGlob` (`len(parts) > 2`): parts in order,
empty parts skipped, the first part a prefix, the last a suffix of the
whole name, middle parts found after the current position. -/
def msGo (name : List Char) (total : Nat) : Nat → Nat → List (List Char) → Bool
  | _, _, [] => true
  | i, pos, part :: rest =>
    if part = [] then msGo name total (i + 1) pos rest
    else if i = 0 then
      part.isPrefixOf name && msGo name total 1 part.length rest
    else if i = total - 1 then part.isSuffixOf name
    else
      match strIndex (name.drop pos) part with
      | none => false
      | some idx => msGo name total (i + 1) (pos + idx + part.length) rest

/-- `matchGlob` from ignore.go, on character lists: direct equality;
single-`*` patterns by suffix/prefix tests; multi-`*` patterns by
sequential scanning; everything else — including the bare pattern `"*"`,
for which none of the two-part cases returns — falls through to
`filepath.Match`. -/
def matchGlobL (p n : List Char) : Bool :=
  if p = n then true
  else if p.contains '*' then
    let parts := splitStar p
    if parts.length = 2 then
      let p0 := parts.headD []
      let p1 := (parts.drop 1).headD []
      if p0 = [] ∧ p1 ≠ [] then p1.isSuffixOf n
      else if p0 ≠ [] ∧ p1 = [] then p0.isPrefixOf n
      else if p0 ≠ [] ∧ p1 ≠ [] then p0.isPrefixOf n && p1.isSuffixOf n
      else fpMatch p n
    else if parts.length > 2 then msGo n parts.length 0 0 parts
    else fpMatch p n
  else fpMatch p n

/-- `matchGlob` on Go strings. -/
def matchGlob (pattern name : String) : Bool := matchGlobL pattern.data name.data

/-- `IgnoreRules.patterns`: directory (clean relative component path,
`[]` for `"."`) ↦ its patterns in file order. -/
abbrev IgnoreTable := List (GoPath × List IgnorePattern)

/-- Go map lookup on the table. -/
def lookupTable (tbl : IgnoreTable) (d : GoPath) : Option (List IgnorePattern) :=
  match tbl with
  | [] => none
  | (d', ps) :: t => if d' = d then some ps else lookupTable t d

/-- The ancestor-collection loop of `ShouldIgnore`: the parent chain from
the immediate parent upwards, stopping before the `"."` root (which the
code appends separately). -/
def collectUp : GoPath → List GoPath
  | [] => []
  | d :: ds => (d :: ds) :: collectUp (d :: ds).dropLast
  termination_by p => p.length
  decreasing_by simp [List.length_dropLast]

/-- One pattern application of the `ShouldIgnore` loop: skip directory-only
patterns for files; root-anchored patterns match only the path relative to
the ancestor; non-anchored patterns match the relative path and the base
name for directories but only the base name for files; a match overwrites
the verdict with `!negate`.  (`filepath.Rel` never fails here: every
ancestor is a prefix, so the error fallback of the code is unreachable;
`isDir` carries the `os.Stat` outcome.) -/
def applyPattern (filePath : GoPath) (isDir : Bool) (dir : GoPath) (ign : Bool)
    (pat : IgnorePattern) : Bool :=
  if pat.directory && !isDir then ign
  else
    let fileName := lastComp filePath
    let relPath := renderPath (filePath.drop dir.length)
    let m :=
      if pat.root then matchGlob pat.pattern relPath
      else if isDir then matchGlob pat.pattern relPath || matchGlob pat.pattern fileName
      else matchGlob pat.pattern fileName
    if m then !pat.negate else ign

/-- `ShouldIgnore` from ignore.go over component paths: collect the
ancestors leaf-to-root, append `"."`, reverse to root-to-leaf order, and
fold every stored pattern of every ancestor over the verdict. -/
def ShouldIgnore (tbl : IgnoreTable) (filePath : GoPath) (isDir : Bool) : Bool :=
  let relevantDirs := ((collectUp filePath.dropLast) ++ [[]]).reverse
  relevantDirs.foldl (fun ign dir =>
    match lookupTable tbl dir with
    | none => ign
    | some pats => pats.foldl (applyPattern filePath isDir dir) ign) false

/-- Modelled from the words of claim C6 (for refutation): as
`applyPattern`, except that a non-anchored pattern is attempted against
both the full relative path and the basename also when the path is a
file. -/
def applyPatternClaimed (filePath : GoPath) (isDir : Bool) (dir : GoPath) (ign : Bool)
    (pat : IgnorePattern) : Bool :=
  if pat.directory && !isDir then ign
  else
    let fileName := lastComp filePath
    let relPath := renderPath (filePath.drop dir.length)
    let m :=
      if pat.root then matchGlob pat.pattern relPath
      else matchGlob pat.pattern relPath || matchGlob pat.pattern fileName
    if m then !pat.negate else ign

/-- The verdict computation claim C6 describes, with the claimed
pattern rule (`applyPatternClaimed`). -/
def shouldIgnoreClaimed (tbl : IgnoreTable) (filePath : GoPath) (isDir : Bool) : Bool :=
  (filePath.dropLast.inits).foldl (fun ign dir =>
    ((lookupTable tbl dir).getD []).foldl (applyPatternClaimed filePath isDir dir) ign) false

/-- The amended description: the ancestor chain root-to-leaf is exactly the
prefixes of the parent directory (`"."` first), each stored pattern applied
in file order with the corrected per-pattern rule (`applyPattern`). -/
def shouldIgnoreSpec (tbl : IgnoreTable) (filePath : GoPath) (isDir : Bool) : Bool :=
  (filePath.dropLast.inits).foldl (fun ign dir =>
    ((lookupTable tbl dir).getD []).foldl (applyPattern filePath isDir dir) ign) false

theorem collectUp_cons (l : GoPath) (h : l ≠ []) :
    collectUp l = l :: collectUp l.dropLast := by
  match l with
  | [] => exact absurd rfl h
  | d :: ds => rw [collectUp]

theorem collectUp_reverse (l : GoPath) :
    ((collectUp l) ++ [([] : GoPath)]).reverse = l.inits := by
  induction l using List.reverseRecOn with
  | nil => simp [collectUp]
  | append_singleton l a ih =>
    rw [collectUp_cons _ (by simp), List.dropLast_concat]
    rw [List.cons_append, List.reverse_cons, ih]
    rw [List.inits_append]
    simp

/-! ## Claim C6 -/

/-- Claim C6 (amended): `ShouldIgnore` evaluates exactly as described —
the ancestors root-to-leaf are the prefixes of the parent directory (the
`"."` table first), patterns in file order, directory-only patterns skipped
for files, root-anchored patterns matched against the relative path only,
every match unconditionally overwriting the verdict with the negation of
the pattern's negate flag — with one correction: a non-anchored pattern is
attempted against both the relative path and the basename only for
directories; for files only the basename is attempted (see the
counterexample).  The spec's scenario holds: with parent pattern `*.log`
and child pattern `!important.log`, `child/important.log` is not ignored
while `child/other.log` and `parent_dir/only.log` are. -/
theorem claimC6 :
    (∀ (tbl : IgnoreTable) (filePath : GoPath) (isDir : Bool),
      ShouldIgnore tbl filePath isDir = shouldIgnoreSpec tbl filePath isDir) ∧
    ShouldIgnore [(["parent_dir"], [{ pattern := "*.log" }]),
        (["parent_dir", "child"], [{ pattern := "important.log", negate := true }])]
      ["parent_dir", "child", "important.log"] false = false ∧
    ShouldIgnore [(["parent_dir"], [{ pattern := "*.log" }]),
        (["parent_dir", "child"], [{ pattern := "important.log", negate := true }])]
      ["parent_dir", "child", "other.log"] false = true ∧
    ShouldIgnore [(["parent_dir"], [{ pattern := "*.log" }]),
        (["parent_dir", "child"], [{ pattern := "important.log", negate := true }])]
      ["parent_dir", "only.log"] false = true := by
  refine ⟨?_, ?_, ?_, ?_⟩
  · intro tbl filePath isDir
    simp only [ShouldIgnore, shouldIgnoreSpec, collectUp_reverse]
    have hfun : (fun (ign : Bool) (dir : GoPath) =>
        match lookupTable tbl dir with
        | none => ign
        | some pats => pats.foldl (applyPattern filePath isDir dir) ign) =
        (fun (ign : Bool) (dir : GoPath) =>
          ((lookupTable tbl dir).getD []).foldl (applyPattern filePath isDir dir) ign) := by
      funext ign dir
      cases h : lookupTable tbl dir <;> rfl
    rw [hfun]
  · simp +decide [ShouldIgnore, collectUp, lookupTable, applyPattern, matchGlob,
      matchGlobL, splitStar, fpMatch, msGo, strIndex, renderPath, lastComp,
      List.dropLast, List.isSuffixOf, List.isPrefixOf]
  · simp +decide [ShouldIgnore, collectUp, lookupTable, applyPattern, matchGlob,
      matchGlobL, splitStar, fpMatch, msGo, strIndex, renderPath, lastComp,
      List.dropLast, List.isSuffixOf, List.isPrefixOf]
  · simp +decide [ShouldIgnore, collectUp, lookupTable, applyPattern, matchGlob,
      matchGlobL, splitStar, fpMatch, msGo, strIndex, renderPath, lastComp,
      List.dropLast, List.isSuffixOf, List.isPrefixOf]

/-- Claim C6, counterexample: a non-anchored pattern `sub/x.log` stored for
directory `parent` does not ignore the file `parent/sub/x.log`, because for
files the code only matches the basename `x.log`; under the claimed
semantics (relative path also attempted) the file would be ignored. -/
theorem claimC6_counterexample :
    ShouldIgnore [(["parent"], [{ pattern := "sub/x.log" }])]
      ["parent", "sub", "x.log"] false = false ∧
    shouldIgnoreClaimed [(["parent"], [{ pattern := "sub/x.log" }])]
      ["parent", "sub", "x.log"] false = true := by
  constructor
  · simp +decide [ShouldIgnore, collectUp, lookupTable, applyPattern, matchGlob,
      matchGlobL, splitStar, fpMatch, msGo, strIndex, renderPath, lastComp,
      List.dropLast, List.isSuffixOf, List.isPrefixOf]
  · simp +decide [shouldIgnoreClaimed, lookupTable, applyPatternClaimed, matchGlob,
      matchGlobL, splitStar, fpMatch, msGo, strIndex, renderPath, lastComp,
      List.dropLast, List.isSuffixOf, List.isPrefixOf]

end Sniff
